import Mathlib

/-!
Verification of the layered settings merge engine in `generate-settings.py`
(donygeorge/claude-toolkit).

JSON value trees are embedded as the inductive type `JSON`; Python dicts are
insertion-ordered association lists (`Obj`).  A well-formed dict never has two
entries with the same key, and the operations below agree with Python dict
semantics on such lists (`popKey` removes every entry with the key, `setKey`
replaces the value in place or appends, `lookup?` finds the entry).  Numbers
are embedded as integers: the configuration trees the engine merges carry
integer and string scalars, and no claim below concerns floating point.
-/

inductive JSON where
  | null : JSON
  | bool (b : Bool) : JSON
  | num (n : Int) : JSON
  | str (s : String) : JSON
  | arr (items : List JSON) : JSON
  | obj (fields : List (String × JSON)) : JSON

abbrev Obj := List (String × JSON)

mutual

/-- Structural (Boolean) equality of JSON trees. -/
def jeq : JSON → JSON → Bool
  | .null, .null => true
  | .bool a, .bool b => a == b
  | .num a, .num b => a == b
  | .str a, .str b => a == b
  | .arr a, .arr b => jeqList a b
  | .obj a, .obj b => jeqObj a b
  | _, _ => false

def jeqList : List JSON → List JSON → Bool
  | [], [] => true
  | x :: xs, y :: ys => jeq x y && jeqList xs ys
  | _, _ => false

def jeqObj : Obj → Obj → Bool
  | [], [] => true
  | (k, v) :: xs, (k2, v2) :: ys => k == k2 && jeq v v2 && jeqObj xs ys
  | _, _ => false

end

mutual

theorem jeq_iff : ∀ a b : JSON, jeq a b = true ↔ a = b
  | a, b => by
    cases a <;> cases b <;> simp [jeq]
    case arr.arr x y => exact jeqList_iff x y
    case obj.obj x y => exact jeqObj_iff x y

theorem jeqList_iff : ∀ a b : List JSON, jeqList a b = true ↔ a = b
  | [], [] => by simp [jeqList]
  | x :: xs, y :: ys => by simp [jeqList, jeq_iff x y, jeqList_iff xs ys]
  | [], _ :: _ => by simp [jeqList]
  | _ :: _, [] => by simp [jeqList]

theorem jeqObj_iff : ∀ a b : Obj, jeqObj a b = true ↔ a = b
  | [], [] => by simp [jeqObj]
  | (k, v) :: xs, (k2, v2) :: ys => by simp [jeqObj, jeq_iff v v2, jeqObj_iff xs ys]
  | [], _ :: _ => by simp [jeqObj]
  | _ :: _, [] => by simp [jeqObj]

end

instance : DecidableEq JSON := fun a b =>
  decidable_of_iff (jeq a b = true) (jeq_iff a b)

mutual

/-- Embeds `_deep_copy` (generate-settings.py): recursive copy of a
JSON-compatible tree.  In a purely functional embedding the copy is
structurally the identity, proved below as `deepCopy_id`. -/
def deepCopy : JSON → JSON
  | .null => .null
  | .bool b => .bool b
  | .num n => .num n
  | .str s => .str s
  | .arr xs => .arr (deepCopyList xs)
  | .obj fs => .obj (deepCopyObj fs)

/-- `_deep_copy` applied elementwise to a list. -/
def deepCopyList : List JSON → List JSON
  | [] => []
  | x :: xs => deepCopy x :: deepCopyList xs

/-- `_deep_copy` applied to a dict: copies every value. -/
def deepCopyObj : Obj → Obj
  | [] => []
  | (k, v) :: fs => (k, deepCopy v) :: deepCopyObj fs

end

mutual

theorem deepCopy_id : ∀ j : JSON, deepCopy j = j
  | .null => rfl
  | .bool _ => rfl
  | .num _ => rfl
  | .str _ => rfl
  | .arr xs => by simp [deepCopy, deepCopyList_id xs]
  | .obj fs => by simp [deepCopy, deepCopyObj_id fs]

theorem deepCopyList_id : ∀ l : List JSON, deepCopyList l = l
  | [] => rfl
  | x :: xs => by simp [deepCopyList, deepCopy_id x, deepCopyList_id xs]

theorem deepCopyObj_id : ∀ o : Obj, deepCopyObj o = o
  | [] => rfl
  | (k, v) :: fs => by simp [deepCopyObj, deepCopy_id v, deepCopyObj_id fs]

end

/-- Python `result[key]` read / `result.get(key)`: the value stored at `k`. -/
def lookupKey (d : Obj) (k : String) : Option JSON :=
  (d.find? (fun p => p.1 == k)).map (fun p => p.2)

/-- Python `key in result`. -/
def hasKey (d : Obj) (k : String) : Bool :=
  d.any (fun p => p.1 == k)

/-- Python `result.pop(key, None)`: remove the entry with key `k` (no-op when
absent). -/
def popKey (d : Obj) (k : String) : Obj :=
  d.filter (fun p => !(p.1 == k))

/-- Python `result[key] = v` write: replace the value in place when the key is
present, append a new entry otherwise. -/
def setKey (d : Obj) (k : String) (v : JSON) : Obj :=
  if d.any (fun p => p.1 == k) then d.map (fun p => if p.1 == k then (k, v) else p)
  else d ++ [(k, v)]

/-- Python `isinstance(x, dict)`. -/
def isDict : JSON → Bool
  | .obj _ => true
  | _ => false

/-- Embeds `_is_object_array` (generate-settings.py): true iff the sequence is
non-empty and every element is a mapping. -/
def isObjectArray (l : List JSON) : Bool :=
  !l.isEmpty && l.all isDict

/-- Field list of a JSON value known to be a mapping.  At every use site
`_is_object_array` has already established that the value is a mapping, so the
default branch is never reached on the embedded code paths. -/
def asFields : JSON → Obj
  | .obj fs => fs
  | _ => []

/-- View of an object array as its list of field lists (used to hand the
elements of an object-classified sequence to the object-array merger). -/
def toObjs (l : List JSON) : List Obj :=
  l.map asFields

/-- Single quote character (used by CPython `repr` of strings and by the
error messages of the validator). -/
def quo : String := (Char.ofNat 39).toString

/-- Lowercase hexadecimal digit, as in CPython's `\xhh` escapes. -/
def hexDigit (n : Nat) : Char :=
  if n < 10 then Char.ofNat (48 + n) else Char.ofNat (87 + n)

/-- CPython `repr` of one character inside a string literal quoted by `q`:
the backslash and the quote character are escaped with a backslash, newline,
carriage return and tab use their short escapes, the remaining ASCII control
characters and DEL are rendered `\xhh` with lowercase hex, and every other
character is rendered as itself.  (CPython additionally `\x`/`\u`-escapes
unprintable non-ASCII characters; both renderings are injective on strings,
so that refinement changes no equalities between reprs.) -/
def pyCharRepr (q : Char) (c : Char) : String :=
  if c = '\\' then "\\\\"
  else if c = q then "\\" ++ q.toString
  else if c = '\n' then "\\n"
  else if c = '\r' then "\\r"
  else if c = '\t' then "\\t"
  else if c.toNat < 32 || c.toNat = 127 then
    String.mk ['\\', 'x', hexDigit (c.toNat / 16), hexDigit (c.toNat % 16)]
  else c.toString

/-- CPython's quote choice for `repr` of a string: single quotes, unless the
string contains a single quote and no double quote. -/
def pyStrQuote (s : String) : Char :=
  if s.toList.contains (Char.ofNat 39) && !(s.toList.contains '"') then '"'
  else Char.ofNat 39

/-- CPython `repr` of a string: the chosen quote around the escaped body. -/
def pyStrRepr (s : String) : String :=
  let q := pyStrQuote s
  q.toString ++ String.join (s.toList.map (pyCharRepr q)) ++ q.toString

mutual

/-- Embeds Python `repr` on JSON-decoded data, the dedup key of the
primitive-array merge.  Strings (including dict keys) render through
`pyStrRepr` with CPython's quote choice and escaping. -/
def pyrepr : JSON → String
  | .null => "None"
  | .bool b => if b then "True" else "False"
  | .num n => toString n
  | .str s => pyStrRepr s
  | .arr xs => "[" ++ pyreprList xs ++ "]"
  | .obj fs => "\x7b" ++ pyreprObj fs ++ "\x7d"

/-- Python `repr` of a list body (comma-separated element reprs). -/
def pyreprList : List JSON → String
  | [] => ""
  | [x] => pyrepr x
  | x :: xs => pyrepr x ++ ", " ++ pyreprList xs

/-- Python `repr` of a dict body. -/
def pyreprObj : Obj → String
  | [] => ""
  | [(k, v)] => pyStrRepr k ++ ": " ++ pyrepr v
  | (k, v) :: fs => pyStrRepr k ++ ": " ++ pyrepr v ++ ", " ++ pyreprObj fs

end

/-- Embeds the primitive-array branch of `deep_merge`: walk `existing + value`
keeping each element whose `repr` was not seen before. -/
def dedupLoop (seen : List String) : List JSON → List JSON
  | [] => []
  | x :: xs =>
    if pyrepr x ∈ seen then dedupLoop seen xs
    else x :: dedupLoop (pyrepr x :: seen) xs

/-- Concat-and-dedup result for two primitive arrays (`seen` starts empty). -/
def dedupRepr (items : List JSON) : List JSON :=
  dedupLoop [] items

/-- Hook merge key constant `HOOK_MERGE_KEY` (generate-settings.py). -/
def HOOK_MERGE_KEY : String := "matcher"

/-- Python `==` on dict keys conflates booleans with the integers 0 and 1
(`True == 1`, `False == 0`, with equal hashes), so key values normalise
booleans to integers. -/
def pyKeyNorm : JSON → JSON
  | .bool b => .num (if b then 1 else 0)
  | v => v

/-- True when `item.get(key)` yields a value Python can use as a dict key:
missing, null, boolean, number or string.  A sequence or mapping value is
unhashable and raises `TypeError` in the program, so the refinement theorem
for the object-array merger assumes hashable key values. -/
def hashableKey (it : Obj) (key : String) : Bool :=
  match lookupKey it key with
  | none => true
  | some JSON.null => true
  | some (JSON.bool _) => true
  | some (JSON.num _) => true
  | some (JSON.str _) => true
  | some _ => false

/-- Embeds `item.get(key)` used as an index key in `_merge_object_arrays`:
`item.get` returns `None` both for a missing field and for an explicit null
value, so both give the sentinel `none`; booleans normalise to integers per
Python dict-key equality. -/
def keyOf (it : Obj) (key : String) : Option JSON :=
  match lookupKey it key with
  | none => none
  | some JSON.null => none
  | some v => some (pyKeyNorm v)

/-- Entry the Python key index holds for `k`: indexing walks the items in
order and later items overwrite earlier ones, so the index holds the last
item carrying the key (`base_by_key[k]` / `overlay_by_key[k]`). -/
def lastWithKey (items : List Obj) (key : String) (k : Option JSON) : Obj :=
  match items.reverse.find? (fun it => keyOf it key == k) with
  | some it => it
  | none => []

/-- Second phase of `_merge_object_arrays`: walk the overlay keys in overlay
order and append (a deep copy of) the indexed item of every key not seen
during the base walk, recording each appended key. -/
def walkOverlayOnly (overlay : List Obj) (key : String) (seen : List (Option JSON)) :
    List (Option JSON) → List Obj
  | [] => []
  | k :: rest =>
    if k ∈ seen then walkOverlayOnly overlay key seen rest
    else deepCopyObj (lastWithKey overlay key k) :: walkOverlayOnly overlay key (k :: seen) rest

theorem one_le_sizeOf_list {α : Type} [SizeOf α] (l : List α) : 1 ≤ sizeOf l := by
  cases l <;> simp_arith

theorem sizeOf_asFields_le (x : JSON) : sizeOf (asFields x) ≤ sizeOf x := by
  cases x <;> simp [asFields] <;> simp_arith

theorem sizeOf_toObjs_le (l : List JSON) : sizeOf (toObjs l) ≤ sizeOf l := by
  induction l with
  | nil => simp [toObjs]
  | cons x xs ih =>
    have hx := sizeOf_asFields_le x
    simp only [toObjs, List.map_cons, List.cons.sizeOf_spec] at *
    omega

theorem sizeOf_toObjs_lt (l : List JSON) (h : isObjectArray l = true) :
    sizeOf (toObjs l) < sizeOf l := by
  cases l with
  | nil => simp [isObjectArray] at h
  | cons x xs =>
    have hxs := sizeOf_toObjs_le xs
    have h1 : isDict x = true := by
      simp [isObjectArray] at h
      exact h.1
    have hx : sizeOf (asFields x) < sizeOf x := by
      cases x <;> simp [isDict] at h1
      simp only [asFields, JSON.obj.sizeOf_spec]
      omega
    simp only [toObjs, List.map_cons, List.cons.sizeOf_spec] at *
    omega

mutual

/-- Embeds `deep_merge` (generate-settings.py): copy the base, then fold the
overlay entries through `mergeStep`. -/
def deep_merge (base overlay : Obj) : Obj :=
  mergeLoop (deepCopyObj base) overlay
termination_by (sizeOf overlay, 6)

/-- The `for key, value in overlay.items()` loop of `deep_merge`. -/
def mergeLoop (result : Obj) (entries : Obj) : Obj :=
  match entries with
  | [] => result
  | (k, v) :: rest => mergeLoop (mergeStep result k v) rest
termination_by (sizeOf entries, 0)

/-- One iteration of the `deep_merge` loop: null deletes the key, an absent
key receives a copy, two mappings recurse, two sequences dispatch on the
object-array classification, anything else is replaced by a copy of the
overlay value. -/
def mergeStep (result : Obj) (k : String) (v : JSON) : Obj :=
  if v = .null then popKey result k
  else
    match lookupKey result k, v with
    | none, _ => result ++ [(k, deepCopy v)]
    | some (.obj b), .obj o => setKey result k (.obj (deep_merge b o))
    | some (.arr l1), .arr l2 =>
      if isObjectArray l1 || isObjectArray l2 then
        setKey result k (.arr ((_merge_object_arrays
          (if isObjectArray l1 then toObjs l1 else [])
          (if isObjectArray l2 then toObjs l2 else [])
          HOOK_MERGE_KEY).map JSON.obj))
      else
        setKey result k (.arr (dedupRepr (l1 ++ l2)))
    | some _, _ => setKey result k (deepCopy v)
termination_by (sizeOf v, 1)
decreasing_by
all_goals simp_wf
· omega
· rcases Bool.eq_false_or_eq_true (isObjectArray l2) with h2 | h2 <;> simp [h2]
  · have := sizeOf_toObjs_lt l2 h2
    omega
  · have := one_le_sizeOf_list l2
    omega

/-- Embeds `_merge_object_arrays` (generate-settings.py): walk the base keys
in base order merging against the overlay index, then append the overlay-only
items; the `seen` set entering the second phase holds exactly the base keys. -/
def _merge_object_arrays (base overlay : List Obj) (key : String) : List Obj :=
  walkBase base overlay key [] (base.map (fun it => keyOf it key))
  ++ walkOverlayOnly overlay key (base.map (fun it => keyOf it key))
      (overlay.map (fun it => keyOf it key))
termination_by (sizeOf overlay, sizeOf (base.map (fun it => keyOf it key)) + 1)
decreasing_by
all_goals simp_wf
omega

/-- First phase of `_merge_object_arrays`: walk the base keys in order,
skipping keys already seen; a key present in the overlay index merges the two
indexed items through `_deep_merge_hook_entry`, otherwise the indexed base
item is copied. -/
def walkBase (base overlay : List Obj) (key : String) (seen order : List (Option JSON)) :
    List Obj :=
  match order with
  | [] => []
  | k :: rest =>
    if k ∈ seen then walkBase base overlay key seen rest
    else
      (match h : overlay.reverse.find? (fun it => keyOf it key == k) with
       | some oitem => _deep_merge_hook_entry (lastWithKey base key k) oitem
       | none => deepCopyObj (lastWithKey base key k))
      :: walkBase base overlay key (k :: seen) rest
termination_by (sizeOf overlay, sizeOf order)
decreasing_by
all_goals simp_wf
all_goals try omega
have hm : oitem ∈ overlay := List.mem_reverse.mp (List.mem_of_find?_eq_some h)
have := List.sizeOf_lt_of_mem hm
omega

/-- Embeds `_deep_merge_hook_entry` (generate-settings.py): copy the base
entry, then fold the overlay fields through `hookEntryStep`. -/
def _deep_merge_hook_entry (base overlay : Obj) : Obj :=
  hookEntryLoop (deepCopyObj base) overlay
termination_by (sizeOf overlay, 5)

/-- The `for key, value in overlay.items()` loop of `_deep_merge_hook_entry`. -/
def hookEntryLoop (result : Obj) (fields : Obj) : Obj :=
  match fields with
  | [] => result
  | (k, v) :: rest => hookEntryLoop (hookEntryStep result k v) rest
termination_by (sizeOf fields, 0)

/-- One iteration of the `_deep_merge_hook_entry` loop: a `"hooks"` field that
is a sequence on both sides is concatenated, two mappings recurse through
`deep_merge`, anything else is replaced by a copy of the overlay value. -/
def hookEntryStep (result : Obj) (k : String) (v : JSON) : Obj :=
  match v, lookupKey result k with
  | .arr l, some (.arr l0) =>
    if k == "hooks" then setKey result k (.arr (l0 ++ deepCopyList l))
    else setKey result k (deepCopy v)
  | .obj o, some (.obj b0) => setKey result k (.obj (deep_merge b0 o))
  | _, _ => setKey result k (deepCopy v)
termination_by (sizeOf v, 4)

end

/-- The inner `for server_name, server_config in value.items()` loop of
`merge_mcp_servers` (generate-settings.py): a null config deletes the server
entry, any other config wholly replaces it with a copy of the overlay value. -/
def serverLoop (servers : Obj) (entries : Obj) : Obj :=
  match entries with
  | [] => servers
  | (n, c) :: rest =>
    serverLoop (if c = .null then popKey servers n else setKey servers n (deepCopy c)) rest

/-- One iteration of the `merge_mcp_servers` loop: null deletes the key; when
both sides hold a mapping at `"mcpServers"` the server entries are folded
through `serverLoop`; other mapping-mapping keys recurse through `deep_merge`;
anything else is replaced by a copy of the overlay value. -/
def mcpStep (result : Obj) (k : String) (v : JSON) : Obj :=
  if v = .null then popKey result k
  else
    match lookupKey result k, v with
    | some (.obj bs), .obj os =>
      if k == "mcpServers" then setKey result k (.obj (serverLoop bs os))
      else setKey result k (.obj (deep_merge bs os))
    | _, _ => setKey result k (deepCopy v)

/-- The `for key, value in overlay.items()` loop of `merge_mcp_servers`. -/
def mcpLoop (result : Obj) (entries : Obj) : Obj :=
  match entries with
  | [] => result
  | (k, v) :: rest => mcpLoop (mcpStep result k v) rest

/-- Embeds `merge_mcp_servers` (generate-settings.py). -/
def merge_mcp_servers (base overlay : Obj) : Obj :=
  mcpLoop (deepCopyObj base) overlay

/-- Embeds `strip_meta` (generate-settings.py): drop the top-level `"_meta"`
key of a stack overlay. -/
def strip_meta (d : Obj) : Obj :=
  d.filter (fun p => !(p.1 == "_meta"))

/-- Embeds `merge_layers` (generate-settings.py): fold the stack overlays
(each stripped of `"_meta"`) into a copy of the base, then the project
overlay.  Python's `if project:` skips both a missing and an empty project
dict, so the empty project dict is modelled as skipped as well. -/
def merge_layers (base : Obj) (stackList : List Obj) (project : Option Obj) : Obj :=
  match project with
  | some p =>
    if p.isEmpty then stackList.foldl (fun acc s => deep_merge acc (strip_meta s)) (deepCopyObj base)
    else deep_merge (stackList.foldl (fun acc s => deep_merge acc (strip_meta s)) (deepCopyObj base)) p
  | none => stackList.foldl (fun acc s => deep_merge acc (strip_meta s)) (deepCopyObj base)

/-- The `_DANGEROUS_BARE` set (generate-settings.py). -/
def DANGEROUS_BARE : List String :=
  ["*", "sh", "bash", "zsh", "fish", "osascript", "powershell", "curl", "wget", "eval"]

/-- Whitespace class shared by Python's `str.strip` and the regex `\s`
(ASCII range; the configuration commands validated here are ASCII). -/
def pyIsSpace (c : Char) : Bool :=
  c = ' ' || c = '\t' || c = '\n' || c = '\r' || c = '\x0b' || c = '\x0c'

/-- Python `cmd.strip()`. -/
def pyStrip (s : String) : String :=
  String.mk (((s.toList.dropWhile pyIsSpace).reverse.dropWhile pyIsSpace).reverse)

/-- Regex word character (`\w`), deciding the `\b` boundaries below. -/
def wordChar (c : Char) : Bool :=
  c.isAlpha || c.isDigit || c = '_'

/-- Strip an exact literal from the front of the input, the building block of
the anchored regex matches. -/
def dropLit : List Char → List Char → Option (List Char)
  | [], s => some s
  | _ :: _, [] => none
  | p :: ps, c :: cs => if c = p then dropLit ps cs else none

/-- A `\b` boundary after a word character: end of input or a non-word
character next. -/
def boundaryOk : List Char → Bool
  | [] => true
  | c :: _ => !wordChar c

/-- Match of one `_INTERPRETER_EXEC_PATTERNS` entry, `^name\s+flag\b`
(`pat.match(stripped)`): the literal interpreter name, one or more whitespace
characters, the literal flag, then a word boundary.  The flag starts with a
non-space character, so the greedy `\s+` is the maximal space run. -/
def matchInterp (name flag : List Char) (s : List Char) : Bool :=
  match dropLit name s with
  | none => false
  | some r1 =>
    match r1 with
    | [] => false
    | c :: rest =>
      pyIsSpace c &&
      (match dropLit flag (rest.dropWhile pyIsSpace) with
       | none => false
       | some r3 => boundaryOk r3)

/-- `any(pat.match(stripped) for pat in _INTERPRETER_EXEC_PATTERNS)`. -/
def interpExecMatch (s : List Char) : Bool :=
  matchInterp "python".toList "-c".toList s ||
  matchInterp "python3".toList "-c".toList s ||
  matchInterp "node".toList "-e".toList s ||
  matchInterp "perl".toList "-e".toList s ||
  matchInterp "ruby".toList "-e".toList s

/-- One alternative of `(sh|bash|python|python3)\b`: the literal name followed
by a word boundary. -/
def shellAlt (s : List Char) : Bool :=
  (match dropLit "sh".toList s with | some r => boundaryOk r | none => false) ||
  (match dropLit "bash".toList s with | some r => boundaryOk r | none => false) ||
  (match dropLit "python".toList s with | some r => boundaryOk r | none => false) ||
  (match dropLit "python3".toList s with | some r => boundaryOk r | none => false)

/-- `_PIPE_TO_SHELL.search(stripped)`, the regex `\|\s*(sh|bash|python|python3)\b`:
some position holds a pipe followed by optional whitespace and a shell or
interpreter name at a word boundary.  The alternatives start with non-space
characters, so the greedy `\s*` is the maximal space run. -/
def pipeToShellSearch : List Char → Bool
  | [] => false
  | c :: rest => (c = '|' && shellAlt (rest.dropWhile pyIsSpace)) || pipeToShellSearch rest

/-- Error entries one command string contributes in `validate_auto_approve`
(generate-settings.py): a bare dangerous command reports once and skips the
remaining rules (`continue`); otherwise the interpreter-exec rule reports at
most once (the inner loop breaks after the first matching pattern) and the
pipe-to-shell rule reports independently. -/
def cmdErrors (cmd : String) : List String :=
  let stripped := pyStrip cmd
  if stripped ∈ DANGEROUS_BARE then
    ["Auto-approve blocked: " ++ quo ++ stripped ++ quo ++ " is a dangerous bare command"]
  else
    (if interpExecMatch stripped.toList then
      ["Auto-approve blocked: " ++ quo ++ stripped ++ quo ++ " uses interpreter exec flag"]
     else [])
    ++ (if pipeToShellSearch stripped.toList then
      ["Auto-approve blocked: " ++ quo ++ stripped ++ quo ++ " contains pipe-to-shell pattern"]
     else [])

/-- Embeds `validate_auto_approve` (generate-settings.py): non-string entries
are skipped, string entries contribute their `cmdErrors`. -/
def validate_auto_approve (commands : List JSON) : List String :=
  match commands with
  | [] => []
  | .str s :: rest => cmdErrors s ++ validate_auto_approve rest
  | _ :: rest => validate_auto_approve rest


theorem lookupKey_nil (k : String) : lookupKey [] k = none := rfl

theorem lookupKey_cons (k0 : String) (v0 : JSON) (rest : Obj) (k : String) :
    lookupKey ((k0, v0) :: rest) k = if k0 == k then some v0 else lookupKey rest k := by
  cases h : (k0 == k) <;> simp [lookupKey, List.find?, h]

theorem hasKey_nil (k : String) : hasKey [] k = false := rfl

theorem hasKey_cons (k0 : String) (v0 : JSON) (rest : Obj) (k : String) :
    hasKey ((k0, v0) :: rest) k = ((k0 == k) || hasKey rest k) := by
  simp [hasKey]

theorem popKey_nil (k : String) : popKey [] k = [] := rfl

theorem popKey_cons (k0 : String) (v0 : JSON) (rest : Obj) (k : String) :
    popKey ((k0, v0) :: rest) k
      = if k0 == k then popKey rest k else (k0, v0) :: popKey rest k := by
  cases h : (k0 == k) <;> simp [popKey, List.filter, h]

theorem setKey_absent (d : Obj) (k : String) (v : JSON) (h : hasKey d k = false) :
    setKey d k v = d ++ [(k, v)] := by
  unfold setKey
  rw [show (d.any fun p => p.1 == k) = hasKey d k from rfl, h]
  simp

theorem setKey_present (d : Obj) (k : String) (v : JSON) (h : hasKey d k = true) :
    setKey d k v = d.map (fun p => if p.1 == k then (k, v) else p) := by
  unfold setKey
  rw [show (d.any fun p => p.1 == k) = hasKey d k from rfl, h]
  simp

theorem popKey_of_hasKey_false (d : Obj) (k : String) (h : hasKey d k = false) :
    popKey d k = d := by
  induction d with
  | nil => rfl
  | cons p rest ih =>
    obtain ⟨k0, v0⟩ := p
    rw [hasKey_cons] at h
    simp only [Bool.or_eq_false_iff] at h
    rw [popKey_cons, h.1, ih h.2]
    simp

theorem hasKey_mapSet (d : Obj) (k2 k : String) (v : JSON) :
    hasKey (d.map (fun p => if p.1 == k2 then (k2, v) else p)) k = hasKey d k := by
  induction d with
  | nil => rfl
  | cons p rest ih =>
    obtain ⟨k0, v0⟩ := p
    simp only [List.map_cons]
    by_cases hk : k0 = k2
    · rw [if_pos (show ((k0, v0).1 == k2) = true by simp [hk])]
      rw [hasKey_cons, hasKey_cons, ih, hk]
    · rw [if_neg (show ¬ ((k0, v0).1 == k2) = true by simp [hk])]
      rw [hasKey_cons, hasKey_cons, ih]

theorem lookupKey_mapSet_self (d : Obj) (k : String) (v : JSON) (h : hasKey d k = true) :
    lookupKey (d.map (fun p => if p.1 == k then (k, v) else p)) k = some v := by
  induction d with
  | nil => simp [hasKey] at h
  | cons p rest ih =>
    obtain ⟨k0, v0⟩ := p
    rw [hasKey_cons] at h
    simp only [List.map_cons]
    by_cases hk : k0 = k
    · rw [if_pos (show ((k0, v0).1 == k) = true by simp [hk])]
      rw [lookupKey_cons]
      simp
    · rw [if_neg (show ¬ ((k0, v0).1 == k) = true by simp [hk])]
      rw [lookupKey_cons, if_neg (by simp [hk])]
      rw [show (k0 == k) = false by simp [hk]] at h
      simp only [Bool.false_or] at h
      exact ih h

theorem lookupKey_mapSet_ne (d : Obj) (k2 k : String) (v : JSON) (h : k2 ≠ k) :
    lookupKey (d.map (fun p => if p.1 == k2 then (k2, v) else p)) k = lookupKey d k := by
  induction d with
  | nil => rfl
  | cons p rest ih =>
    obtain ⟨k0, v0⟩ := p
    simp only [List.map_cons]
    by_cases hk : k0 = k2
    · rw [if_pos (show ((k0, v0).1 == k2) = true by simp [hk])]
      rw [lookupKey_cons, lookupKey_cons, ih]
      rw [if_neg (by simp [h] : ¬ (k2 == k) = true), if_neg (by simp [hk, h] : ¬ (k0 == k) = true)]
    · rw [if_neg (show ¬ ((k0, v0).1 == k2) = true by simp [hk])]
      rw [lookupKey_cons, lookupKey_cons, ih]

theorem lookupKey_setKey_self (d : Obj) (k : String) (v : JSON) :
    lookupKey (setKey d k v) k = some v := by
  cases h : (hasKey d k) with
  | false =>
    rw [setKey_absent d k v h]
    induction d with
    | nil => simp [lookupKey_cons, lookupKey_nil]
    | cons p rest ih =>
      obtain ⟨k0, v0⟩ := p
      rw [hasKey_cons] at h
      simp only [Bool.or_eq_false_iff] at h
      rw [List.cons_append, lookupKey_cons, h.1]
      simp only [if_false, Bool.false_eq_true]
      exact ih h.2
  | true =>
    rw [setKey_present d k v h]
    exact lookupKey_mapSet_self d k v h

theorem lookupKey_setKey_ne (d : Obj) (k2 k : String) (v : JSON) (h : k2 ≠ k) :
    lookupKey (setKey d k2 v) k = lookupKey d k := by
  cases h2 : (hasKey d k2) with
  | false =>
    rw [setKey_absent d k2 v h2]
    induction d with
    | nil => simp [lookupKey_cons, lookupKey_nil, h]
    | cons p rest ih =>
      obtain ⟨k0, v0⟩ := p
      rw [hasKey_cons] at h2
      simp only [Bool.or_eq_false_iff] at h2
      rw [List.cons_append, lookupKey_cons, lookupKey_cons]
      cases h3 : (k0 == k) <;> simp only [Bool.false_eq_true, if_false, if_true]
      exact ih h2.2
  | true =>
    rw [setKey_present d k2 v h2]
    exact lookupKey_mapSet_ne d k2 k v h

theorem hasKey_setKey_self (d : Obj) (k : String) (v : JSON) :
    hasKey (setKey d k v) k = true := by
  cases h : (hasKey d k) with
  | false =>
    rw [setKey_absent d k v h]
    simp [hasKey]
  | true => rw [setKey_present d k v h, hasKey_mapSet, h]

theorem hasKey_setKey_ne (d : Obj) (k2 k : String) (v : JSON) (h : k2 ≠ k) :
    hasKey (setKey d k2 v) k = hasKey d k := by
  cases h2 : (hasKey d k2) with
  | false =>
    rw [setKey_absent d k2 v h2]
    induction d with
    | nil =>
      simp [hasKey_cons, hasKey_nil]
      exact h
    | cons p rest ih =>
      obtain ⟨k0, v0⟩ := p
      rw [hasKey_cons] at h2
      simp only [Bool.or_eq_false_iff] at h2
      rw [List.cons_append, hasKey_cons, hasKey_cons, ih h2.2]
  | true => rw [setKey_present d k2 v h2, hasKey_mapSet]

theorem hasKey_popKey_self (d : Obj) (k : String) : hasKey (popKey d k) k = false := by
  induction d with
  | nil => rfl
  | cons p rest ih =>
    obtain ⟨k0, v0⟩ := p
    rw [popKey_cons]
    cases h : (k0 == k) <;> simp only [Bool.false_eq_true, if_false, if_true]
    · rw [hasKey_cons, h, ih]
      rfl
    · exact ih

theorem hasKey_popKey_ne (d : Obj) (k2 k : String) (h : k2 ≠ k) :
    hasKey (popKey d k2) k = hasKey d k := by
  induction d with
  | nil => rfl
  | cons p rest ih =>
    obtain ⟨k0, v0⟩ := p
    rw [popKey_cons]
    cases h2 : (k0 == k2) <;> simp only [Bool.false_eq_true, if_false, if_true]
    · rw [hasKey_cons, hasKey_cons, ih]
    · have hk : k0 = k2 := by simpa using h2
      have h3 : (k0 == k) = false := by simp [hk, h]
      rw [hasKey_cons, h3, ih]
      simp

theorem lookupKey_popKey_self (d : Obj) (k : String) :
    lookupKey (popKey d k) k = none := by
  induction d with
  | nil => rfl
  | cons p rest ih =>
    obtain ⟨k0, v0⟩ := p
    rw [popKey_cons]
    cases h : (k0 == k) <;> simp only [Bool.false_eq_true, if_false, if_true]
    · rw [lookupKey_cons, h, ih]
      rfl
    · exact ih

theorem lookupKey_popKey_ne (d : Obj) (k2 k : String) (h : k2 ≠ k) :
    lookupKey (popKey d k2) k = lookupKey d k := by
  induction d with
  | nil => rfl
  | cons p rest ih =>
    obtain ⟨k0, v0⟩ := p
    rw [popKey_cons]
    cases h2 : (k0 == k2) <;> simp only [Bool.false_eq_true, if_false, if_true]
    · rw [lookupKey_cons, lookupKey_cons, ih]
    · have hk : k0 = k2 := by simpa using h2
      have h3 : (k0 == k) = false := by simp [hk, h]
      rw [lookupKey_cons, h3, ih]
      simp

theorem lookupKey_append_single (d : Obj) (k2 k : String) (v : JSON) :
    lookupKey (d ++ [(k2, v)]) k
      = if lookupKey d k = none then (if k2 == k then some v else none)
        else lookupKey d k := by
  induction d with
  | nil => simp [lookupKey_cons, lookupKey_nil]
  | cons p rest ih =>
    obtain ⟨k0, v0⟩ := p
    rw [List.cons_append, lookupKey_cons, lookupKey_cons]
    cases h : (k0 == k) <;> simp [ih]

/-- C7: for every mapping `T`, `merge(T, {})` returns a tree structurally
equal to `T` — the empty overlay is a right identity of the deep merge. -/
theorem merge_empty_right_identity (T : Obj) : deep_merge T [] = T := by
  simp [deep_merge, mergeLoop, deepCopyObj_id]

/-- C1: for every mapping `T` and key `k`, `merge(T, {k: null})` returns `T`
with `k` removed from the top level, and when `k` is absent in `T` the result
equals `T` (a null overlay value deletes, and is a no-op on an absent key). -/
theorem merge_null_deletes (T : Obj) (k : String) :
    deep_merge T [(k, JSON.null)] = popKey T k
    ∧ (hasKey T k = false → deep_merge T [(k, JSON.null)] = T) := by
  have h1 : deep_merge T [(k, JSON.null)] = popKey T k := by
    simp only [deep_merge, mergeLoop, deepCopyObj_id]
    rw [mergeStep.eq_def]
    simp
  exact ⟨h1, fun h => by rw [h1, popKey_of_hasKey_false T k h]⟩

theorem merge_null_deletes_witness :
    hasKey [("a", JSON.num 1)] "b" = false
    ∧ deep_merge [("a", JSON.num 1)] [("b", JSON.null)] = popKey [("a", JSON.num 1)] "b"
    ∧ deep_merge [("a", JSON.num 1)] [("b", JSON.null)] = [("a", JSON.num 1)] :=
  ⟨rfl, (merge_null_deletes [("a", JSON.num 1)] "b").1,
    (merge_null_deletes [("a", JSON.num 1)] "b").2 rfl⟩

/-- C2: when the base and overlay values at a key are both sequences and at
least one is classified an object array, the merged value is produced by the
object-array merger with the non-object side contributing the empty sequence;
the empty sequence itself is never classified an object array. -/
theorem merge_object_array_dispatch (base : Obj) (k : String) (l1 l2 : List JSON)
    (hb : lookupKey base k = some (JSON.arr l1))
    (hc : (isObjectArray l1 || isObjectArray l2) = true) :
    deep_merge base [(k, JSON.arr l2)]
      = setKey base k (JSON.arr ((_merge_object_arrays
          (if isObjectArray l1 then toObjs l1 else [])
          (if isObjectArray l2 then toObjs l2 else [])
          HOOK_MERGE_KEY).map JSON.obj))
    ∧ isObjectArray [] = false := by
  constructor
  · simp only [deep_merge, mergeLoop, deepCopyObj_id]
    rw [mergeStep.eq_def]
    simp [hb, hc]
  · rfl

theorem merge_object_array_dispatch_witness :
    lookupKey [("h", JSON.arr [])] "h" = some (JSON.arr [])
    ∧ (isObjectArray [] || isObjectArray [JSON.obj [("matcher", JSON.str "B")]]) = true
    ∧ (deep_merge [("h", JSON.arr [])] [("h", JSON.arr [JSON.obj [("matcher", JSON.str "B")]])]
        = setKey [("h", JSON.arr [])] "h" (JSON.arr ((_merge_object_arrays
            (if isObjectArray ([] : List JSON) then toObjs [] else [])
            (if isObjectArray [JSON.obj [("matcher", JSON.str "B")]]
             then toObjs [JSON.obj [("matcher", JSON.str "B")]] else [])
            HOOK_MERGE_KEY).map JSON.obj))
        ∧ isObjectArray [] = false) :=
  ⟨rfl, rfl,
    merge_object_array_dispatch [("h", JSON.arr [])] "h" [] [JSON.obj [("matcher", JSON.str "B")]]
      rfl rfl⟩

/-- C3: when neither sequence is classified an object array, the merged value
concatenates base then overlay and removes duplicates by first occurrence of
the CPython `repr`, whose equality distinguishes value and type: integer `1`
and string `"1"` stay distinct, and boolean `true` and integer `1` stay
distinct.  The last two conjuncts pin the repr's quote-choice behaviour:
`["a", "b"]` and the one-string list holding the text a-quote-comma-quote-b
render differently (the second string is double-quoted), so the dedup keeps
values distinct exactly as the program does. -/
theorem merge_primitive_concat (base : Obj) (k : String) (l1 l2 : List JSON)
    (hb : lookupKey base k = some (JSON.arr l1))
    (h1 : isObjectArray l1 = false) (h2 : isObjectArray l2 = false) :
    deep_merge base [(k, JSON.arr l2)] = setKey base k (JSON.arr (dedupRepr (l1 ++ l2)))
    ∧ deep_merge [("items", JSON.arr [JSON.num 1])] [("items", JSON.arr [JSON.str "1"])]
        = [("items", JSON.arr [JSON.num 1, JSON.str "1"])]
    ∧ deep_merge [("items", JSON.arr [JSON.bool true])] [("items", JSON.arr [JSON.num 1])]
        = [("items", JSON.arr [JSON.bool true, JSON.num 1])]
    ∧ pyrepr (JSON.arr [JSON.str "a", JSON.str "b"])
        ≠ pyrepr (JSON.arr [JSON.str ("a" ++ quo ++ ", " ++ quo ++ "b")])
    ∧ dedupRepr [JSON.arr [JSON.str "a", JSON.str "b"],
          JSON.arr [JSON.str ("a" ++ quo ++ ", " ++ quo ++ "b")]]
        = [JSON.arr [JSON.str "a", JSON.str "b"],
          JSON.arr [JSON.str ("a" ++ quo ++ ", " ++ quo ++ "b")]] := by
  refine ⟨?_, ?_, ?_, ?_, ?_⟩
  · simp only [deep_merge, mergeLoop, deepCopyObj_id]
    rw [mergeStep.eq_def]
    simp [hb, h1, h2]
  · simp [deep_merge, mergeLoop, mergeStep, lookupKey, setKey, popKey, isObjectArray, isDict,
      dedupRepr, dedupLoop, pyrepr, deepCopy_id, deepCopyList_id, deepCopyObj_id, List.find?]
    decide
  · simp [deep_merge, mergeLoop, mergeStep, lookupKey, setKey, popKey, isObjectArray, isDict,
      dedupRepr, dedupLoop, pyrepr, deepCopy_id, deepCopyList_id, deepCopyObj_id, List.find?]
    decide
  · decide
  · decide

theorem merge_primitive_concat_witness :
    lookupKey [("items", JSON.arr [JSON.num 1])] "items" = some (JSON.arr [JSON.num 1])
    ∧ isObjectArray [JSON.num 1] = false
    ∧ isObjectArray [JSON.str "1"] = false
    ∧ deep_merge [("items", JSON.arr [JSON.num 1])] [("items", JSON.arr [JSON.str "1"])]
        = setKey [("items", JSON.arr [JSON.num 1])] "items"
            (JSON.arr (dedupRepr ([JSON.num 1] ++ [JSON.str "1"]))) :=
  ⟨rfl, rfl, rfl,
    (merge_primitive_concat [("items", JSON.arr [JSON.num 1])] "items"
      [JSON.num 1] [JSON.str "1"] rfl rfl rfl).1⟩

/-- Python `isinstance(cmd, str)`. -/
def isStr : JSON → Bool
  | .str _ => true
  | _ => false

/-- Modelled from the claim: the number of distinct validation rules a command
string violates — bare dangerous name, interpreter inline-execute flag,
pipe-into-shell — counting each rule independently of the others. -/
def ruleViolations (cmd : String) : Nat :=
  (if pyStrip cmd ∈ DANGEROUS_BARE then 1 else 0)
  + (if interpExecMatch (pyStrip cmd).toList then 1 else 0)
  + (if pipeToShellSearch (pyStrip cmd).toList then 1 else 0)

theorem bare_matches_nothing_else (s : String) (h : s ∈ DANGEROUS_BARE) :
    interpExecMatch s.toList = false ∧ pipeToShellSearch s.toList = false := by
  simp [DANGEROUS_BARE] at h
  rcases h with rfl | rfl | rfl | rfl | rfl | rfl | rfl | rfl | rfl | rfl <;>
    exact ⟨by decide, by decide⟩

theorem cmdErrors_length (s : String) : (cmdErrors s).length = ruleViolations s := by
  unfold cmdErrors ruleViolations
  by_cases hb : pyStrip s ∈ DANGEROUS_BARE
  · obtain ⟨h1, h2⟩ := bare_matches_nothing_else (pyStrip s) hb
    simp [hb, show interpExecMatch (pyStrip s).data = false from h1,
      show pipeToShellSearch (pyStrip s).data = false from h2]
  · simp only [hb, if_false]
    cases h1 : interpExecMatch (pyStrip s).toList <;>
      cases h2 : pipeToShellSearch (pyStrip s).toList <;>
        simp [hb, h1, h2]

/-- C9: `validate_auto_approve` evaluates every rule for every command, so
each string command contributes one error entry per violated rule, and
`validateAutoApprove(["*", "curl | sh"])` returns exactly 2 error strings. -/
theorem validate_one_error_per_rule :
    (∀ cmds : List JSON, (validate_auto_approve cmds).length
      = (cmds.map (fun c => match c with | JSON.str s => ruleViolations s | _ => 0)).sum)
    ∧ (validate_auto_approve [JSON.str "*", JSON.str "curl | sh"]).length = 2 := by
  constructor
  · intro cmds
    induction cmds with
    | nil => rfl
    | cons c rest ih =>
      cases c <;> simp [validate_auto_approve, ih, cmdErrors_length]
  · decide

/-- C10: `validate_auto_approve` silently skips every non-string element: the
result equals the validator applied to the string elements alone, and a
non-string element contributes no error. -/
theorem validate_skips_non_strings :
    (∀ cmds : List JSON, validate_auto_approve cmds
        = validate_auto_approve (cmds.filter isStr))
    ∧ (∀ (j : JSON) (cmds : List JSON), isStr j = false
        → validate_auto_approve (j :: cmds) = validate_auto_approve cmds) := by
  constructor
  · intro cmds
    induction cmds with
    | nil => rfl
    | cons c rest ih =>
      cases c <;> simp [validate_auto_approve, isStr, ih, List.filter]
  · intro j cmds hj
    cases j <;> simp [validate_auto_approve] <;> simp [isStr] at hj

theorem validate_skips_non_strings_witness :
    isStr (JSON.num 0) = false
    ∧ validate_auto_approve [JSON.num 0, JSON.str "curl | sh"]
        = validate_auto_approve [JSON.str "curl | sh"] :=
  ⟨rfl, validate_skips_non_strings.2 (JSON.num 0) [JSON.str "curl | sh"] rfl⟩

/-- Distinct key values in first-occurrence order, relative to an initial set
of already-seen keys (the key-walk order both phases of the object-array
merger follow). -/
def dedupKeys (seen : List (Option JSON)) : List (Option JSON) → List (Option JSON)
  | [] => []
  | k :: rest => if k ∈ seen then dedupKeys seen rest else k :: dedupKeys (k :: seen) rest

/-- Modelled from the claim (C4): for each distinct key value in base in
first-occurrence order, the element merge of the last-indexed base element
and the last-indexed overlay element when the key appears in overlay, else a
copy of the base element; followed by each overlay element whose key has no
base counterpart, in overlay order; duplicate keys within one side contribute
only their last-indexed element. -/
def mergeKeyedArraysSpec (base overlay : List Obj) (key : String) : List Obj :=
  (dedupKeys [] (base.map (fun it => keyOf it key))).map (fun k =>
    if k ∈ overlay.map (fun it => keyOf it key) then
      _deep_merge_hook_entry (lastWithKey base key k) (lastWithKey overlay key k)
    else deepCopyObj (lastWithKey base key k))
  ++ (dedupKeys (base.map (fun it => keyOf it key)) (overlay.map (fun it => keyOf it key))).map
      (fun k => deepCopyObj (lastWithKey overlay key k))

theorem find_overlay_eq_none (overlay : List Obj) (key : String) (k : Option JSON)
    (hf : overlay.reverse.find? (fun it => keyOf it key == k) = none) :
    k ∉ overlay.map (fun it => keyOf it key) := by
  rw [List.find?_eq_none] at hf
  simp only [List.mem_map]
  rintro ⟨it, hit, hk⟩
  exact absurd (by simp [hk]) (hf it (List.mem_reverse.mpr hit))

theorem find_overlay_eq_some (overlay : List Obj) (key : String) (k : Option JSON)
    (oitem : Obj)
    (hf : overlay.reverse.find? (fun it => keyOf it key == k) = some oitem) :
    k ∈ overlay.map (fun it => keyOf it key) ∧ lastWithKey overlay key k = oitem := by
  constructor
  · have hmem := List.mem_of_find?_eq_some hf
    have hp := List.find?_some hf
    simp only [beq_iff_eq] at hp
    simp only [List.mem_map]
    exact ⟨oitem, List.mem_reverse.mp hmem, hp⟩
  · unfold lastWithKey
    rw [hf]

theorem walkOverlayOnly_eq (overlay : List Obj) (key : String)
    (seen order : List (Option JSON)) :
    walkOverlayOnly overlay key seen order
      = (dedupKeys seen order).map (fun k => deepCopyObj (lastWithKey overlay key k)) := by
  induction order generalizing seen with
  | nil => rfl
  | cons k rest ih =>
    simp only [walkOverlayOnly, dedupKeys]
    by_cases hs : k ∈ seen <;> simp [hs, ih]

theorem walkBase_eq (base overlay : List Obj) (key : String)
    (seen order : List (Option JSON)) :
    walkBase base overlay key seen order
      = (dedupKeys seen order).map (fun k =>
          if k ∈ overlay.map (fun it => keyOf it key) then
            _deep_merge_hook_entry (lastWithKey base key k) (lastWithKey overlay key k)
          else deepCopyObj (lastWithKey base key k)) := by
  induction order generalizing seen with
  | nil => rw [walkBase.eq_def]; rfl
  | cons k rest ih =>
    rw [walkBase.eq_def]
    simp only [dedupKeys]
    by_cases hs : k ∈ seen
    · simp [hs, ih]
    · simp only [hs, if_false, if_neg, not_false_iff]
      cases hf : overlay.reverse.find? (fun it => keyOf it key == k) with
      | some oitem =>
        obtain ⟨hmem, hlast⟩ := find_overlay_eq_some overlay key k oitem hf
        simp only [hs, hf, hlast, ih, List.map_cons]
        rw [if_pos (by simpa [List.mem_map] using hmem)]
      | none =>
        have hmem := find_overlay_eq_none overlay key k hf
        simp only [hs, hf, ih, List.map_cons]
        rw [if_neg (by simpa [List.mem_map] using hmem)]

/-- C4: for elements whose key-field values are hashable (the domain on which
the program's dict indexing is defined), the object-array merger returns, for
each distinct key value in base in first-occurrence order, the element merge
of the base element and the overlay element when the key appears in overlay
(else a copy of the base element), followed by the overlay elements whose
keys have no base counterpart in overlay order; on each side only the
last-indexed element of a duplicated key contributes.  Key identity is
Python's: a missing field and an explicit null both index under the `None`
sentinel — so a base element with a null matcher and an overlay element with
no matcher merge into one element — and booleans index as integers. -/
theorem merge_keyed_arrays_spec (base overlay : List Obj) (key : String)
    (hbh : ∀ it ∈ base, hashableKey it key = true)
    (hoh : ∀ it ∈ overlay, hashableKey it key = true) :
    _merge_object_arrays base overlay key = mergeKeyedArraysSpec base overlay key
    ∧ _merge_object_arrays [[("matcher", JSON.null)]] [[("y", JSON.num 1)]] "matcher"
        = [[("matcher", JSON.null), ("y", JSON.num 1)]] := by
  constructor
  · rw [_merge_object_arrays.eq_def, walkBase_eq, walkOverlayOnly_eq]
    rfl
  · have hentry : _deep_merge_hook_entry [("matcher", JSON.null)] [("y", JSON.num 1)]
        = [("matcher", JSON.null), ("y", JSON.num 1)] := by
      rw [_deep_merge_hook_entry.eq_def]
      simp [hookEntryLoop, hookEntryStep, lookupKey, setKey, List.find?,
        deepCopy_id, deepCopyList_id, deepCopyObj_id]
    rw [_merge_object_arrays.eq_def, walkBase_eq, walkOverlayOnly_eq]
    simp [dedupKeys, keyOf, pyKeyNorm, lookupKey, lastWithKey, List.find?,
      deepCopyObj_id, hentry]

theorem merge_keyed_arrays_spec_witness :
    (∀ it ∈ ([[("matcher", JSON.null)]] : List Obj), hashableKey it "matcher" = true)
    ∧ (∀ it ∈ ([[("y", JSON.num 1)]] : List Obj), hashableKey it "matcher" = true)
    ∧ _merge_object_arrays [[("matcher", JSON.null)]] [[("y", JSON.num 1)]] "matcher"
        = mergeKeyedArraysSpec [[("matcher", JSON.null)]] [[("y", JSON.num 1)]] "matcher" :=
  ⟨by decide, by decide,
    (merge_keyed_arrays_spec [[("matcher", JSON.null)]] [[("y", JSON.num 1)]] "matcher"
      (by decide) (by decide)).1⟩

theorem lookupKey_hookEntryStep_ne (res : Obj) (k2 k : String) (v : JSON) (h : k2 ≠ k) :
    lookupKey (hookEntryStep res k2 v) k = lookupKey res k := by
  rw [hookEntryStep.eq_def]
  split
  · split
    · exact lookupKey_setKey_ne _ _ _ _ h
    · exact lookupKey_setKey_ne _ _ _ _ h
  · exact lookupKey_setKey_ne _ _ _ _ h
  · exact lookupKey_setKey_ne _ _ _ _ h

theorem hasKey_false_of_not_mem (d : Obj) (k : String) (h : k ∉ d.map Prod.fst) :
    hasKey d k = false := by
  simp only [hasKey, List.any_eq_false]
  intro p hp
  simp only [beq_iff_eq]
  intro heq
  exact h (List.mem_map.mpr ⟨p, hp, heq⟩)

theorem lookupKey_hookEntryLoop_absent (res fields : Obj) (k : String)
    (hf : hasKey fields k = false) :
    lookupKey (hookEntryLoop res fields) k = lookupKey res k := by
  induction fields generalizing res with
  | nil => rw [hookEntryLoop.eq_def]
  | cons p rest ih =>
    obtain ⟨k2, v⟩ := p
    rw [hasKey_cons] at hf
    simp only [Bool.or_eq_false_iff] at hf
    rw [hookEntryLoop.eq_def]
    simp only
    rw [ih _ hf.2, lookupKey_hookEntryStep_ne res k2 k v (by simpa using hf.1)]

theorem hookEntryLoop_hooks_concat (fields : Obj) (res : Obj) (cur ho : List JSON)
    (hres : lookupKey res "hooks" = some (JSON.arr cur))
    (hf : lookupKey fields "hooks" = some (JSON.arr ho))
    (hnd : (fields.map Prod.fst).Nodup) :
    lookupKey (hookEntryLoop res fields) "hooks" = some (JSON.arr (cur ++ ho)) := by
  induction fields generalizing res with
  | nil => simp [lookupKey_nil] at hf
  | cons p rest ih =>
    obtain ⟨k2, v⟩ := p
    simp only [List.map_cons, List.nodup_cons] at hnd
    rw [hookEntryLoop.eq_def]
    simp only
    by_cases hk : k2 = "hooks"
    · subst hk
      rw [lookupKey_cons] at hf
      rw [if_pos (by simp)] at hf
      injection hf with hv
      subst hv
      have hstep : hookEntryStep res "hooks" (JSON.arr ho)
          = setKey res "hooks" (JSON.arr (cur ++ deepCopyList ho)) := by
        rw [hookEntryStep.eq_def]
        simp [hres]
      rw [hstep, deepCopyList_id]
      rw [lookupKey_hookEntryLoop_absent _ _ _ (hasKey_false_of_not_mem rest "hooks" hnd.1)]
      exact lookupKey_setKey_self res "hooks" (JSON.arr (cur ++ ho))
    · rw [lookupKey_cons, if_neg (by simp [hk])] at hf
      exact ih (hookEntryStep res k2 v) (by
        rw [lookupKey_hookEntryStep_ne res k2 "hooks" v hk]
        exact hres) hf hnd.2

/-- C5 counterexample: a field not named `"hooks"` that is a sequence in both
keyed elements is replaced by the overlay sequence in the element merge,
while the standard Deep Merge Engine mapping rule would concatenate the two
sequences — so not every other field follows the standard mapping-merge
rules. -/
theorem hook_entry_not_standard :
    _deep_merge_hook_entry [("env", JSON.arr [JSON.num 1])] [("env", JSON.arr [JSON.num 2])]
      = [("env", JSON.arr [JSON.num 2])]
    ∧ deep_merge [("env", JSON.arr [JSON.num 1])] [("env", JSON.arr [JSON.num 2])]
      = [("env", JSON.arr [JSON.num 1, JSON.num 2])] := by
  constructor
  · rw [_deep_merge_hook_entry.eq_def]
    simp [hookEntryLoop, hookEntryStep, lookupKey, setKey, List.find?,
      deepCopy_id, deepCopyList_id, deepCopyObj_id]
  · simp [deep_merge, mergeLoop, mergeStep, lookupKey, setKey, popKey, isObjectArray, isDict,
      dedupRepr, dedupLoop, pyrepr, deepCopy_id, deepCopyList_id, deepCopyObj_id, List.find?]
    decide

/-- C5 (amended): in the element merge of two keyed elements, a `"hooks"`
field that is a sequence in both is concatenated base-then-overlay with no
deduplication; a field that is a mapping in both follows the standard deep
merge recursively; every other field is replaced by a copy of the overlay
value rather than following the standard mapping-merge rules — in particular
a sequence not named `"hooks"` replaces instead of array-merging, and a null
overlay field is stored rather than deleting the key; merging two
single-element arrays sharing a matcher, each with a one-element hooks list,
yields one element whose hooks list has both elements in base-then-overlay
order. -/
theorem hook_entry_amended (b o : Obj) (hbl hol : List JSON)
    (hb0 : lookupKey b "hooks" = some (JSON.arr hbl))
    (ho0 : lookupKey o "hooks" = some (JSON.arr hol))
    (hnd : (o.map Prod.fst).Nodup) :
    lookupKey (_deep_merge_hook_entry b o) "hooks" = some (JSON.arr (hbl ++ hol))
    ∧ (∀ (res : Obj) (k : String) (b0 o2 : Obj), lookupKey res k = some (JSON.obj b0)
        → hookEntryStep res k (JSON.obj o2) = setKey res k (JSON.obj (deep_merge b0 o2)))
    ∧ (∀ (res : Obj) (k : String) (l l0 : List JSON), k ≠ "hooks"
        → lookupKey res k = some (JSON.arr l0)
        → hookEntryStep res k (JSON.arr l) = setKey res k (JSON.arr l))
    ∧ (∀ (res : Obj) (k : String), hookEntryStep res k JSON.null = setKey res k JSON.null)
    ∧ (∀ (res : Obj) (k : String) (v : JSON),
        (¬∃ o2 b0, v = JSON.obj o2 ∧ lookupKey res k = some (JSON.obj b0))
        → (¬(k = "hooks" ∧ ∃ l l0, v = JSON.arr l ∧ lookupKey res k = some (JSON.arr l0)))
        → hookEntryStep res k v = setKey res k (deepCopy v))
    ∧ _merge_object_arrays
        [[("matcher", JSON.str "X"), ("hooks", JSON.arr [JSON.str "a"])]]
        [[("matcher", JSON.str "X"), ("hooks", JSON.arr [JSON.str "b"])]]
        "matcher"
      = [[("matcher", JSON.str "X"), ("hooks", JSON.arr [JSON.str "a", JSON.str "b"])]] := by
  refine ⟨?_, ?_, ?_, ?_, ?_, ?_⟩
  · rw [_deep_merge_hook_entry.eq_def, deepCopyObj_id]
    exact hookEntryLoop_hooks_concat o b hbl hol hb0 ho0 hnd
  · intro res k b0 o2 h
    rw [hookEntryStep.eq_def]
    simp [h]
  · intro res k l l0 hk h
    rw [hookEntryStep.eq_def]
    simp [h, hk, deepCopy_id]
  · intro res k
    rw [hookEntryStep.eq_def]
    cases hl : lookupKey res k with
    | none => rfl
    | some w => cases w <;> rfl
  · intro res k v hnd2 hnh
    rw [hookEntryStep.eq_def]
    cases hl : lookupKey res k with
    | none => cases v <;> rfl
    | some w =>
      cases w with
      | null => cases v <;> rfl
      | bool b2 => cases v <;> rfl
      | num n2 => cases v <;> rfl
      | str s2 => cases v <;> rfl
      | arr l0 =>
        cases v with
        | arr l =>
          have hk : (k == "hooks") = false := by
            simp only [beq_eq_false_iff_ne, ne_eq]
            intro hkk
            exact hnh ⟨hkk, l, l0, rfl, hl⟩
          simp only [hk, Bool.false_eq_true, if_false]
        | null => rfl
        | bool b2 => rfl
        | num n2 => rfl
        | str s3 => rfl
        | obj o2 => rfl
      | obj b0 =>
        cases v with
        | obj o2 => exact absurd ⟨o2, b0, rfl, hl⟩ hnd2
        | null => rfl
        | bool b2 => rfl
        | num n2 => rfl
        | str s3 => rfl
        | arr l => rfl
  · have hentry : _deep_merge_hook_entry
        [("matcher", JSON.str "X"), ("hooks", JSON.arr [JSON.str "a"])]
        [("matcher", JSON.str "X"), ("hooks", JSON.arr [JSON.str "b"])]
        = [("matcher", JSON.str "X"), ("hooks", JSON.arr [JSON.str "a", JSON.str "b"])] := by
      rw [_deep_merge_hook_entry.eq_def]
      simp [hookEntryLoop, hookEntryStep, lookupKey, setKey, List.find?,
        deepCopy_id, deepCopyList_id, deepCopyObj_id]
    rw [_merge_object_arrays.eq_def, walkBase_eq, walkOverlayOnly_eq]
    simp [dedupKeys, keyOf, lookupKey, lastWithKey, List.find?, deepCopyObj_id, hentry]

theorem hook_entry_amended_witness :
    lookupKey [("hooks", JSON.arr [JSON.str "a"])] "hooks" = some (JSON.arr [JSON.str "a"])
    ∧ lookupKey [("hooks", JSON.arr [JSON.str "b"])] "hooks" = some (JSON.arr [JSON.str "b"])
    ∧ (([("hooks", JSON.arr [JSON.str "b"])] : Obj).map Prod.fst).Nodup
    ∧ lookupKey (_deep_merge_hook_entry [("hooks", JSON.arr [JSON.str "a"])]
          [("hooks", JSON.arr [JSON.str "b"])]) "hooks"
        = some (JSON.arr ([JSON.str "a"] ++ [JSON.str "b"]))
    ∧ hookEntryStep [("x", JSON.num 1)] "x" JSON.null
        = setKey [("x", JSON.num 1)] "x" JSON.null
    ∧ hookEntryStep [("x", JSON.num 1)] "x" (JSON.str "s")
        = setKey [("x", JSON.num 1)] "x" (deepCopy (JSON.str "s")) :=
  ⟨rfl, rfl, by simp,
    (hook_entry_amended [("hooks", JSON.arr [JSON.str "a"])] [("hooks", JSON.arr [JSON.str "b"])]
      [JSON.str "a"] [JSON.str "b"] rfl rfl (by simp)).1,
    (hook_entry_amended [("hooks", JSON.arr [JSON.str "a"])] [("hooks", JSON.arr [JSON.str "b"])]
      [JSON.str "a"] [JSON.str "b"] rfl rfl (by simp)).2.2.2.1 [("x", JSON.num 1)] "x",
    (hook_entry_amended [("hooks", JSON.arr [JSON.str "a"])] [("hooks", JSON.arr [JSON.str "b"])]
      [JSON.str "a"] [JSON.str "b"] rfl rfl (by simp)).2.2.2.2.1 [("x", JSON.num 1)] "x"
      (JSON.str "s") (by simp) (by simp)⟩

theorem serverLoop_lookup_absent (rest : Obj) (s : Obj) (n : String)
    (h : hasKey rest n = false) :
    lookupKey (serverLoop s rest) n = lookupKey s n := by
  induction rest generalizing s with
  | nil => rfl
  | cons p tl ih =>
    obtain ⟨n0, c⟩ := p
    rw [hasKey_cons] at h
    simp only [Bool.or_eq_false_iff] at h
    have hn : n0 ≠ n := by simpa using h.1
    simp only [serverLoop]
    rw [ih _ h.2]
    split
    · exact lookupKey_popKey_ne s n0 n hn
    · exact lookupKey_setKey_ne s n0 n _ hn

theorem serverLoop_lookup (os : Obj) (bs : Obj) (n : String)
    (hnd : (os.map Prod.fst).Nodup) :
    lookupKey (serverLoop bs os) n
      = match lookupKey os n with
        | some JSON.null => none
        | some c => some c
        | none => lookupKey bs n := by
  induction os generalizing bs with
  | nil => simp [serverLoop, lookupKey_nil]
  | cons p rest ih =>
    obtain ⟨n0, c⟩ := p
    simp only [List.map_cons, List.nodup_cons] at hnd
    simp only [serverLoop]
    by_cases hn : n0 = n
    · subst hn
      have hrest : hasKey rest n0 = false := hasKey_false_of_not_mem rest n0 hnd.1
      rw [lookupKey_cons, if_pos (show (n0 == n0) = true by simp)]
      by_cases hc : c = JSON.null
      · rw [if_pos hc]
        rw [serverLoop_lookup_absent rest (popKey bs n0) n0 hrest]
        subst hc
        simp [lookupKey_popKey_self]
      · rw [if_neg hc]
        rw [serverLoop_lookup_absent rest (setKey bs n0 (deepCopy c)) n0 hrest]
        rw [lookupKey_setKey_self, deepCopy_id]
        cases c <;> simp_all
    · rw [lookupKey_cons, if_neg (show ¬((n0 == n) = true) by simp [hn])]
      have hupd : lookupKey (if c = JSON.null then popKey bs n0 else setKey bs n0 (deepCopy c)) n
          = lookupKey bs n := by
        split
        · exact lookupKey_popKey_ne bs n0 n hn
        · exact lookupKey_setKey_ne bs n0 n _ hn
      rw [ih _ hnd.2]
      cases hr : lookupKey rest n with
      | none => exact hupd
      | some c2 => cases c2 <;> rfl

/-- C6 counterexample: a sequence at a top-level key other than the server
registry is replaced by the overlay sequence in `merge_mcp_servers`, while
the standard Deep Merge Engine would concatenate the two sequences — so not
all other top-level keys follow the standard Deep Merge Engine rules. -/
theorem mcp_non_registry_not_standard :
    merge_mcp_servers [("a", JSON.arr [JSON.num 1])] [("a", JSON.arr [JSON.num 2])]
      = [("a", JSON.arr [JSON.num 2])]
    ∧ deep_merge [("a", JSON.arr [JSON.num 1])] [("a", JSON.arr [JSON.num 2])]
      = [("a", JSON.arr [JSON.num 1, JSON.num 2])] := by
  constructor
  · simp [merge_mcp_servers, mcpLoop, mcpStep, lookupKey, setKey, popKey, List.find?,
      deepCopy_id, deepCopyList_id, deepCopyObj_id]
  · simp [deep_merge, mergeLoop, mergeStep, lookupKey, setKey, popKey, isObjectArray, isDict,
      dedupRepr, dedupLoop, pyrepr, deepCopy_id, deepCopyList_id, deepCopyObj_id, List.find?]
    decide

/-- C6 (amended): when both sides hold a mapping at `"mcpServers"`, each
overlay entry with a null value deletes the same-named base entry and each
non-null entry wholly replaces it (no recursive merge, no array
concatenation); other top-level keys follow the standard engine's null-delete
and mapping-recursion rules, but a non-mapping overlay value at another key —
including a sequence — replaces the base value outright instead of being
array-merged. -/
theorem mcp_registry_amended (base : Obj) (bs os : Obj)
    (hb : lookupKey base "mcpServers" = some (JSON.obj bs))
    (hnd : (os.map Prod.fst).Nodup) :
    merge_mcp_servers base [("mcpServers", JSON.obj os)]
      = setKey base "mcpServers" (JSON.obj (serverLoop bs os))
    ∧ (∀ n : String, lookupKey (serverLoop bs os) n
        = match lookupKey os n with
          | some JSON.null => none
          | some c => some c
          | none => lookupKey bs n)
    ∧ (∀ (res : Obj) (k : String) (b0 o0 : Obj), k ≠ "mcpServers"
        → lookupKey res k = some (JSON.obj b0)
        → mcpStep res k (JSON.obj o0) = setKey res k (JSON.obj (deep_merge b0 o0)))
    ∧ (∀ (res : Obj) (k : String), mcpStep res k JSON.null = popKey res k)
    ∧ (∀ (res : Obj) (k : String) (v : JSON), v ≠ JSON.null
        → (¬∃ o0 b0, v = JSON.obj o0 ∧ lookupKey res k = some (JSON.obj b0))
        → mcpStep res k v = setKey res k (deepCopy v))
    ∧ merge_mcp_servers
        [("mcpServers", JSON.obj [("x", JSON.obj [("args", JSON.arr [JSON.str "v1"])])])]
        [("mcpServers", JSON.obj [("x", JSON.obj [("args", JSON.arr [JSON.str "v2"])])])]
      = [("mcpServers", JSON.obj [("x", JSON.obj [("args", JSON.arr [JSON.str "v2"])])])] := by
  refine ⟨?_, ?_, ?_, ?_, ?_, ?_⟩
  · simp [merge_mcp_servers, mcpLoop, mcpStep, deepCopyObj_id, hb]
  · intro n
    exact serverLoop_lookup os bs n hnd
  · intro res k b0 o0 hk h
    simp [mcpStep, h, hk]
  · intro res k
    simp [mcpStep]
  · intro res k v hv hnd2
    rw [mcpStep.eq_def, if_neg hv]
    cases hl : lookupKey res k with
    | none => cases v <;> rfl
    | some w =>
      cases w with
      | obj b0 =>
        cases v with
        | obj o0 => exact absurd ⟨o0, b0, rfl, hl⟩ hnd2
        | null => rfl
        | bool b2 => rfl
        | num n2 => rfl
        | str s2 => rfl
        | arr l => rfl
      | null => cases v <;> rfl
      | bool b2 => cases v <;> rfl
      | num n2 => cases v <;> rfl
      | str s2 => cases v <;> rfl
      | arr l0 => cases v <;> rfl
  · decide

theorem mcp_registry_amended_witness :
    lookupKey [("mcpServers", JSON.obj [("x", JSON.num 1)])] "mcpServers"
        = some (JSON.obj [("x", JSON.num 1)])
    ∧ (([("x", JSON.num 2), ("y", JSON.null)] : Obj).map Prod.fst).Nodup
    ∧ merge_mcp_servers [("mcpServers", JSON.obj [("x", JSON.num 1)])]
        [("mcpServers", JSON.obj [("x", JSON.num 2), ("y", JSON.null)])]
      = setKey [("mcpServers", JSON.obj [("x", JSON.num 1)])] "mcpServers"
          (JSON.obj (serverLoop [("x", JSON.num 1)] [("x", JSON.num 2), ("y", JSON.null)]))
    ∧ mcpStep [("a", JSON.arr [JSON.num 1])] "a" (JSON.arr [JSON.num 2])
        = setKey [("a", JSON.arr [JSON.num 1])] "a" (deepCopy (JSON.arr [JSON.num 2])) :=
  ⟨rfl, by simp,
    (mcp_registry_amended [("mcpServers", JSON.obj [("x", JSON.num 1)])]
      [("x", JSON.num 1)] [("x", JSON.num 2), ("y", JSON.null)] rfl (by simp)).1,
    (mcp_registry_amended [("mcpServers", JSON.obj [("x", JSON.num 1)])]
      [("x", JSON.num 1)] [("x", JSON.num 2), ("y", JSON.null)] rfl (by simp)).2.2.2.2.1
      [("a", JSON.arr [JSON.num 1])] "a" (JSON.arr [JSON.num 2]) (by simp) (by simp)⟩

theorem hasKey_append (d : Obj) (k2 k : String) (v : JSON) :
    hasKey (d ++ [(k2, v)]) k = (hasKey d k || (k2 == k)) := by
  simp [hasKey]

theorem hasKey_mergeStep_ne (res : Obj) (k2 k : String) (v : JSON) (h : k2 ≠ k) :
    hasKey (mergeStep res k2 v) k = hasKey res k := by
  rw [mergeStep.eq_def]
  split
  · exact hasKey_popKey_ne res k2 k h
  · split
    · rw [hasKey_append]
      simp [h]
    · exact hasKey_setKey_ne _ _ _ _ h
    · split
      · exact hasKey_setKey_ne _ _ _ _ h
      · exact hasKey_setKey_ne _ _ _ _ h
    · exact hasKey_setKey_ne _ _ _ _ h

theorem hasKey_mergeStep_self (res : Obj) (k : String) (v : JSON) :
    hasKey (mergeStep res k v) k = if v = JSON.null then false else true := by
  rw [mergeStep.eq_def]
  split
  · next hv => simp [hv, hasKey_popKey_self]
  · split
    · rw [hasKey_append]
      simp
    · exact hasKey_setKey_self _ _ _
    · split
      · exact hasKey_setKey_self _ _ _
      · exact hasKey_setKey_self _ _ _
    · exact hasKey_setKey_self _ _ _

theorem hasKey_mergeLoop_absent (o : Obj) (res : Obj) (k : String)
    (h : hasKey o k = false) :
    hasKey (mergeLoop res o) k = hasKey res k := by
  induction o generalizing res with
  | nil => rw [mergeLoop.eq_def]
  | cons p rest ih =>
    obtain ⟨k0, v⟩ := p
    rw [hasKey_cons] at h
    simp only [Bool.or_eq_false_iff] at h
    rw [mergeLoop.eq_def]
    simp only
    rw [ih _ h.2, hasKey_mergeStep_ne res k0 k v (by simpa using h.1)]

theorem hasKey_mergeLoop (o : Obj) (res : Obj) (k : String)
    (hnd : (o.map Prod.fst).Nodup) :
    hasKey (mergeLoop res o) k
      = match lookupKey o k with
        | some JSON.null => false
        | some _ => true
        | none => hasKey res k := by
  induction o generalizing res with
  | nil => rw [mergeLoop.eq_def, lookupKey_nil]
  | cons p rest ih =>
    obtain ⟨k0, v⟩ := p
    simp only [List.map_cons, List.nodup_cons] at hnd
    rw [mergeLoop.eq_def]
    simp only
    by_cases hk : k0 = k
    · subst hk
      rw [lookupKey_cons, if_pos (show (k0 == k0) = true by simp)]
      have hrest : hasKey rest k0 = false := hasKey_false_of_not_mem rest k0 hnd.1
      rw [hasKey_mergeLoop_absent rest _ k0 hrest, hasKey_mergeStep_self]
      by_cases hv : v = JSON.null
      · subst hv
        simp
      · rw [if_neg hv]
        cases v <;> simp_all
    · rw [lookupKey_cons, if_neg (show ¬((k0 == k) = true) by simp [hk])]
      rw [ih _ hnd.2, hasKey_mergeStep_ne res k0 k v hk]

/-- Overlay layers as `merge_layers` applies them: the stack overlays with
`"_meta"` stripped, then the project overlay when present and non-empty. -/
def effectiveOverlays (stackList : List Obj) (project : Option Obj) : List Obj :=
  stackList.map strip_meta ++ (match project with
    | some p => if p.isEmpty then [] else [p]
    | none => [])

/-- Modelled from the claim (C8): the value attached to a key by the last
layer that mentions it. -/
def lastMention (layers : List Obj) (k : String) : Option JSON :=
  layers.reverse.findSome? (fun l => lookupKey l k)

/-- Folding the deep merge over a list of overlay layers. -/
def foldMerge (base : Obj) (layers : List Obj) : Obj :=
  layers.foldl (fun acc l => deep_merge acc l) base

theorem lastMention_append (ls : List Obj) (l : Obj) (k : String) :
    lastMention (ls ++ [l]) k
      = match lookupKey l k with
        | some v => some v
        | none => lastMention ls k := by
  unfold lastMention
  rw [List.reverse_append]
  simp only [List.reverse_singleton, List.singleton_append, List.findSome?_cons]
  cases lookupKey l k <;> simp

theorem hasKey_foldMerge (layers : List Obj) (base : Obj) (k : String)
    (hnd : ∀ l ∈ layers, (l.map Prod.fst).Nodup) :
    hasKey (foldMerge base layers) k
      = match lastMention layers k with
        | some JSON.null => false
        | some _ => true
        | none => hasKey base k := by
  induction layers using List.reverseRecOn with
  | nil => rfl
  | append_singleton ls l ih =>
    have hl : (l.map Prod.fst).Nodup := hnd l (by simp)
    have hls : ∀ m ∈ ls, (m.map Prod.fst).Nodup := fun m hm => hnd m (by simp [hm])
    have hfa : foldMerge base (ls ++ [l]) = deep_merge (foldMerge base ls) l := by
      unfold foldMerge
      rw [List.foldl_append]
      rfl
    rw [hfa]
    simp only [deep_merge]
    rw [deepCopyObj_id]
    rw [hasKey_mergeLoop l _ k hl, lastMention_append]
    cases hv : lookupKey l k with
    | some v => cases v <;> rfl
    | none => exact ih hls

theorem merge_layers_eq_foldMerge (base : Obj) (stackList : List Obj)
    (project : Option Obj) :
    merge_layers base stackList project = foldMerge base (effectiveOverlays stackList project) := by
  unfold merge_layers effectiveOverlays foldMerge
  cases project with
  | none => simp [deepCopyObj_id, List.foldl_map]
  | some p =>
    by_cases hp : p.isEmpty
    · simp [hp, deepCopyObj_id, List.foldl_map]
    · simp [hp, deepCopyObj_id, List.foldl_map, List.foldl_append]

/-- C8 counterexample: a top-level key whose last-applied value across the
layers is explicitly null is nevertheless present in the result when the
layer attaching that null is the base: the base is copied verbatim, and only
overlay-side nulls delete. -/
theorem layer_null_in_base_survives :
    merge_layers [("k", JSON.null)] [] none = [("k", JSON.null)]
    ∧ hasKey (merge_layers [("k", JSON.null)] [] none) "k" = true :=
  ⟨rfl, rfl⟩

/-- C8 (amended): a top-level key mentioned by at least one overlay layer
(stack overlays after `"_meta"` stripping, then the project overlay) is
absent from the result iff the last overlay layer mentioning it attaches
null; a key mentioned by no overlay layer is present iff it is present in the
base, regardless of the base's own value (a null stored in the base
survives). -/
theorem layer_presence_amended (base : Obj) (stackList : List Obj) (project : Option Obj)
    (k : String)
    (hnd : ∀ l ∈ effectiveOverlays stackList project, (l.map Prod.fst).Nodup) :
    hasKey (merge_layers base stackList project) k
      = match lastMention (effectiveOverlays stackList project) k with
        | some JSON.null => false
        | some _ => true
        | none => hasKey base k := by
  rw [merge_layers_eq_foldMerge]
  exact hasKey_foldMerge _ base k hnd

theorem layer_presence_amended_witness :
    (∀ l ∈ effectiveOverlays [[("k", JSON.num 2)]] (some [("k", JSON.null)]),
      (l.map Prod.fst).Nodup)
    ∧ hasKey (merge_layers [("k", JSON.num 1)] [[("k", JSON.num 2)]]
        (some [("k", JSON.null)])) "k"
        = match lastMention (effectiveOverlays [[("k", JSON.num 2)]]
            (some [("k", JSON.null)])) "k" with
          | some JSON.null => false
          | some _ => true
          | none => hasKey [("k", JSON.num 1)] "k" :=
  ⟨by decide, layer_presence_amended [("k", JSON.num 1)] [[("k", JSON.num 2)]]
    (some [("k", JSON.null)]) "k" (by decide)⟩
